import Mathlib

/-!
Shallow embedding of the orphan-image cleanup pipeline of
`internal/deleteUntaggedImages` (package `deleteuntaggedimages`).

The registry client (the Go `ECRAPI` interface) is modelled as data:
pagination is a list of page results, `BatchGetImage` and
`BatchDeleteImage` are response functions.  Every Go function of the
pipeline is translated to a pure Lean function over that data; issued
remote calls are returned as an explicit `ApiCall` trace so that
frame/effect properties ("no mutating calls") are statable.
Concurrency in `CleanECRWithLogging` (one goroutine per repository,
results collected under a mutex) is linearized in repository order; the
goroutines share no state other than the log/error accumulators, so the
per-repository results are order-independent.
-/

namespace EcrCleaner

/-- An entry of the registry's image listing: Go `types.ImageIdentifier`
(`ImageDigest *string`, `ImageTag *string`); a `nil` tag pointer is `none`. -/
structure ImageId where
  imageDigest : String
  imageTag : Option String
deriving DecidableEq

/-- JSON values, the target of Go `json.Unmarshal` into `map[string]interface{}`. -/
inductive Json where
  | null
  | bool (b : Bool)
  | num (n : Int)
  | str (s : String)
  | arr (elems : List Json)
  | obj (fields : List (String × Json))

/-- Field lookup in an unmarshalled JSON object.  Go builds a map from the
object's fields, so for duplicate keys the later value wins. -/
def getField (fields : List (String × Json)) (key : String) : Option Json :=
  fields.foldl (fun acc kv => if kv.fst = key then some kv.snd else acc) none

/-- Abnormal outcomes of the manifest-parsing loop of `getChildImages`:
`unmarshal` models the returned `json.Unmarshal` error (the body is not
valid JSON, or is valid JSON that cannot decode into a Go map — any
value other than an object or the literal `null`); `entryPanic` models
the runtime panic of the naked type assertion
`m.(map[string]interface{})` on a `manifests` entry that is not an object. -/
inductive ChildErr where
  | unmarshal
  | entryPanic
deriving DecidableEq

/-- The inner loop over a `manifests` array: a non-object entry hits the
single-valued type assertion `m.(map[string]interface{})` and panics;
an object entry contributes its `digest` field when that is a string. -/
def childrenOfEntries : List Json → Except ChildErr (List String)
  | [] => Except.ok []
  | Json.obj fields :: rest =>
    match childrenOfEntries rest with
    | Except.error e => Except.error e
    | Except.ok cs =>
      match getField fields "digest" with
      | some (Json.str d) => Except.ok (d :: cs)
      | _ => Except.ok cs
  | _ :: _ => Except.error ChildErr.entryPanic

/-- The manifest-parsing loop of `getChildImages` / `listChildImages`
over the manifest bodies returned by `BatchGetImage`.  A body is
`none` when it is not valid JSON.  `json.Unmarshal` of the literal
`null` into a map succeeds and leaves the map nil (no children, no
error); unmarshalling any non-object JSON value into
`map[string]interface{}` returns an error. -/
def getChildImages : List (Option Json) → Except ChildErr (List String)
  | [] => Except.ok []
  | none :: _ => Except.error ChildErr.unmarshal
  | some body :: rest =>
    match body with
    | Json.null => getChildImages rest
    | Json.obj fields =>
      match getField fields "manifests" with
      | some (Json.arr ms) =>
        match childrenOfEntries ms with
        | Except.error e => Except.error e
        | Except.ok cs =>
          match getChildImages rest with
          | Except.error e => Except.error e
          | Except.ok cs2 => Except.ok (cs ++ cs2)
      | _ => getChildImages rest
    | _ => Except.error ChildErr.unmarshal

/-- `true` when a manifest body gets through the parsing loop without an
error or a panic: it is a JSON object (or the literal `null`), and when it
carries a `manifests` array every entry of that array is an object. -/
def bodyOk : Option Json → Bool
  | some Json.null => true
  | some (Json.obj fields) =>
    (match getField fields "manifests" with
     | some (Json.arr ms) =>
       ms.all fun m => match m with | Json.obj _ => true | _ => false
     | _ => true)
  | _ => false

/-- Go `partitionList`: consecutive chunks of `size`, the last possibly
shorter.  The Go loop (`for i := 0; i < len(lst); i += size`) does not
terminate for `size = 0`; every call site passes `100`, and the model
returns `[]` on that unreachable branch to stay total. -/
def partitionList (lst : List String) (size : Nat) : List (List String) :=
  if h : lst = [] ∨ size = 0 then []
  else lst.take size :: partitionList (lst.drop size) size
termination_by lst.length
decreasing_by
  push_neg at h
  have hl : 0 < lst.length := List.length_pos.mpr h.1
  simpa [List.length_drop] using Nat.sub_lt hl (Nat.pos_of_ne_zero h.2)

/-- Go `filterOrphans`: builds a set from `children`, then keeps, in
order, every element of `orphans` that is not in that set. -/
def filterOrphans (orphans children : List String) : List String :=
  orphans.foldl
    (fun result orphan =>
      if children.contains orphan then result else result ++ [orphan]) []

/-- The spec's set difference `U − C` on digest lists: the elements of
`u` not occurring in `c`, in order. -/
def setDiff (u c : List String) : List String :=
  u.filter fun x => !(c.contains x)

/-- The orphan-narrowing fold of `imagesToDelete` over an arbitrary
chunking of the tagged digests; the children of a chunk are the
concatenation of each digest's manifest children `childOf`. -/
def reconcileChunks (childOf : String → List String) (chunks : List (List String)) (orphans : List String) : List String :=
  chunks.foldl (fun orph part => filterOrphans orph (part.map childOf).flatten) orphans

/-- The per-image classification loop of `getImages` / `listImages`:
a non-nil tag appends the digest to `tagged`, else to `orphan`. -/
def classifyImages (page : List ImageId) (acc : List String × List String) : List String × List String :=
  page.foldl
    (fun acc img =>
      if img.imageTag.isSome then (acc.fst ++ [img.imageDigest], acc.snd)
      else (acc.fst, acc.snd ++ [img.imageDigest]))
    acc

/-- Go `getImages`: exhausts the `ListImages` paginator, classifying each
listed image; the first page fetch error aborts with that error and no
partial result.  Called with accumulator `([], [])`. -/
def getImages : List (Except String (List ImageId)) → List String × List String → Except String (List String × List String)
  | [], acc => Except.ok acc
  | Except.error msg :: _, _ => Except.error msg
  | Except.ok page :: rest, acc => getImages rest (classifyImages page acc)

/-- Go `listImages` is a verbatim duplicate of `getImages` in the source. -/
def listImages (pages : List (Except String (List ImageId))) (acc : List String × List String) : Except String (List String × List String) :=
  getImages pages acc

/-- All images of the successfully fetched pages, in listing order. -/
def listedImages : List (Except String (List ImageId)) → List ImageId
  | [] => []
  | Except.ok page :: rest => page ++ listedImages rest
  | Except.error _ :: rest => listedImages rest

/-- A repository listing as the real registry produces it: no digest is
listed both with and without a tag. -/
def ValidListing (pages : List (Except String (List ImageId))) : Prop :=
  ∀ i ∈ listedImages pages, ∀ j ∈ listedImages pages,
    i.imageDigest = j.imageDigest → i.imageTag.isSome = j.imageTag.isSome

/-- Digests of the listed images that carry a tag, in order. -/
def taggedOf (l : List ImageId) : List String :=
  (l.filter fun i => i.imageTag.isSome).map fun i => i.imageDigest

/-- Digests of the listed images with no tag, in order. -/
def orphanOf (l : List ImageId) : List String :=
  (l.filter fun i => !(i.imageTag.isSome)).map fun i => i.imageDigest

/-- A remote call issued by the pipeline: a `ListImages` page fetch, a
`BatchGetImage`, or a (mutating) `BatchDeleteImage`. -/
inductive ApiCall where
  | listPage
  | batchGet (imageIds : List String)
  | batchDelete (imageIds : List String)
deriving DecidableEq

/-- One entry of `BatchDeleteImageOutput.Failures`. -/
structure DeleteFailure where
  digest : String
  code : String
  reason : String
deriving DecidableEq

/-- Go `ecr.BatchDeleteImageOutput`: the identifiers reported deleted and
the per-item failures of an otherwise successful batch. -/
structure BatchDeleteResult where
  imageIds : List String
  failures : List DeleteFailure
deriving DecidableEq

/-- A log line produced by the pipeline; the Go code builds these with
`fmt.Sprintf`, each format string injective in its arguments, so a
constructor per format preserves the reported content. -/
inductive LogMsg where
  | dryRunRepo (repo : String)
  | checking (repo : String)
  | foundImages (repo : String) (tagged untagged : Nat)
  | findingChildren (repo : String)
  | errGetImages (repo : String)
  | dryRunWouldDelete (count : Nat) (repo : String)
  | deleting (repo : String) (count : Nat)
  | failedDelete (repo digest code reason : String)
  | deletedSummary (repo : String) (deleted failed : Nat)
  | errDeleteImages (repo : String)
  | nothingToDelete (repo : String)
deriving DecidableEq

/-- Errors of a repository pipeline; the Go code wraps them in
`fmt.Errorf` context strings, which the claims never inspect. -/
inductive PipeErr where
  | listFailed (msg : String)
  | getFailed (msg : String)
  | unmarshalFailed
  | entryPanic
  | deleteFailed (msg : String)
deriving DecidableEq

/-- The registry's responses for one repository: the `ListImages` pages,
the `BatchGetImage` manifest bodies per requested digest chunk (a body is
`none` when its text is not valid JSON), and the `BatchDeleteImage`
result per requested digest chunk. -/
structure RepoEnv where
  pages : List (Except String (List ImageId))
  batchGet : List String → Except String (List (Option Json))
  batchDelete : List String → Except String BatchDeleteResult

/-- Go `listChildImages` (and `getChildImages` of the source, a verbatim
duplicate): one `BatchGetImage` call for the chunk, then the parsing loop. -/
def listChildImages (env : RepoEnv) (part : List String) : Except PipeErr (List String) :=
  match env.batchGet part with
  | Except.error msg => Except.error (PipeErr.getFailed msg)
  | Except.ok bodies =>
    match getChildImages bodies with
    | Except.error ChildErr.unmarshal => Except.error PipeErr.unmarshalFailed
    | Except.error ChildErr.entryPanic => Except.error PipeErr.entryPanic
    | Except.ok cs => Except.ok cs

/-- The chunk loop of `imagesToDelete`: narrow the orphan list with each
chunk's children, aborting on the first extraction error. -/
def reconcileE (env : RepoEnv) : List (List String) → List String → Except PipeErr (List String)
  | [], orphans => Except.ok orphans
  | part :: rest, orphans =>
    match listChildImages env part with
    | Except.error e => Except.error e
    | Except.ok children => reconcileE env rest (filterOrphans orphans children)

/-- Go `imagesToDelete`: list the repository's images, then narrow the
orphans chunk by chunk; returns the final orphans with the tagged and
initially-untagged counts. -/
def imagesToDelete (env : RepoEnv) : Except PipeErr (List String × Nat × Nat) :=
  match listImages env.pages ([], []) with
  | Except.error msg => Except.error (PipeErr.listFailed msg)
  | Except.ok (tagged, orphans) =>
    match reconcileE env (partitionList tagged 100) orphans with
    | Except.error e => Except.error e
    | Except.ok orph => Except.ok (orph, tagged.length, orphans.length)

/-- One `listPage` call per page the paginator fetches (fetching stops
at the first failing page). -/
def listCalls : List (Except String (List ImageId)) → List ApiCall
  | [] => []
  | Except.ok _ :: rest => ApiCall.listPage :: listCalls rest
  | Except.error _ :: _ => [ApiCall.listPage]

/-- The chunk loop of `imagesToDeleteWithLogging`, also producing its log
lines and the `BatchGetImage` calls it issues. -/
def reconcileLogged (env : RepoEnv) (repo : String) : List (List String) → List String → Except PipeErr (List String) × List LogMsg × List ApiCall
  | [], orphans => (Except.ok orphans, [], [])
  | part :: rest, orphans =>
    match listChildImages env part with
    | Except.error e => (Except.error e, [LogMsg.findingChildren repo], [ApiCall.batchGet part])
    | Except.ok children =>
      let r := reconcileLogged env repo rest (filterOrphans orphans children)
      (r.fst, LogMsg.findingChildren repo :: r.snd.fst, ApiCall.batchGet part :: r.snd.snd)

/-- Go `imagesToDeleteWithLogging`: like `imagesToDelete` but returning
only the orphans, with the log lines and calls. -/
def imagesToDeleteWithLogging (env : RepoEnv) (repo : String) : Except PipeErr (List String) × List LogMsg × List ApiCall :=
  match getImages env.pages ([], []) with
  | Except.error msg => (Except.error (PipeErr.listFailed msg), [], listCalls env.pages)
  | Except.ok (tagged, orphans) =>
    let r := reconcileLogged env repo (partitionList tagged 100) orphans
    (r.fst, LogMsg.foundImages repo tagged.length orphans.length :: r.snd.fst,
      listCalls env.pages ++ r.snd.snd)

/-- The batch loop of Go `deleteImages`: per chunk, the dry-run check
(`continue`) precedes the `BatchDeleteImage` call; a request-level error
returns the partial totals with the error; otherwise the reported
deleted identifiers and per-item failures are tallied. -/
def deleteBatches (bd : List String → Except String BatchDeleteResult) (dryRun : Bool) : List (List String) → Nat → Nat → (Nat × Nat × Option String) × List ApiCall
  | [], deleted, failed => ((deleted, failed, none), [])
  | part :: rest, deleted, failed =>
    if dryRun then deleteBatches bd dryRun rest deleted failed
    else
      match bd part with
      | Except.error msg => ((deleted, failed, some msg), [ApiCall.batchDelete part])
      | Except.ok res =>
        let r := deleteBatches bd dryRun rest (deleted + res.imageIds.length) (failed + res.failures.length)
        (r.fst, ApiCall.batchDelete part :: r.snd)

/-- Go `deleteImages`: `(deleted, failed, error)` plus the issued
mutating calls. -/
def deleteImages (bd : List String → Except String BatchDeleteResult) (images : List String) (dryRun : Bool) : (Nat × Nat × Option String) × List ApiCall :=
  deleteBatches bd dryRun (partitionList images 100) 0 0

/-- The batch loop of `deleteImagesWithLogging` (reached only when not a
dry run): logs the chunk size, calls `BatchDeleteImage`, logs each
per-item failure, and logs the final tallies after the last chunk. -/
def deleteBatchesLogged (bd : List String → Except String BatchDeleteResult) (repo : String) : List (List String) → Nat → Nat → Option String × List LogMsg × List ApiCall
  | [], deleted, failed => (none, [LogMsg.deletedSummary repo deleted failed], [])
  | part :: rest, deleted, failed =>
    match bd part with
    | Except.error msg => (some msg, [LogMsg.deleting repo part.length], [ApiCall.batchDelete part])
    | Except.ok res =>
      let r := deleteBatchesLogged bd repo rest (deleted + res.imageIds.length) (failed + res.failures.length)
      (r.fst,
        LogMsg.deleting repo part.length ::
          (res.failures.map fun f => LogMsg.failedDelete repo f.digest f.code f.reason) ++ r.snd.fst,
        ApiCall.batchDelete part :: r.snd.snd)

/-- Go `deleteImagesWithLogging`: a dry run logs the would-delete count
(the length of the list passed in) and returns at once, issuing no call. -/
def deleteImagesWithLogging (bd : List String → Except String BatchDeleteResult) (repo : String) (images : List String) (dryRun : Bool) : Option String × List LogMsg × List ApiCall :=
  if dryRun then (none, [LogMsg.dryRunWouldDelete images.length repo], [])
  else deleteBatchesLogged bd repo (partitionList images 100) 0 0

/-- Outcome of one repository's goroutine: `done` when the body runs to
its end (with the error it recorded, if any, its log lines and issued
calls), or `panicked` when the manifests-entry type assertion hits a
runtime panic — the goroutine body's error handling never executes, the
panic is not recovered anywhere, and it escapes the goroutine (the log
lines appended before the panic and the calls issued so far are kept
for the record). -/
inductive RepoResult where
  | done (err : Option PipeErr) (logs : List LogMsg) (calls : List ApiCall)
  | panicked (logs : List LogMsg) (calls : List ApiCall)
deriving DecidableEq

/-- Whether the goroutine ended in the unrecovered runtime panic. -/
def RepoResult.isPanic : RepoResult → Bool
  | RepoResult.panicked _ _ => true
  | RepoResult.done _ _ _ => false

/-- The error the goroutine recorded in the shared `errs` list, if any
(a panicked goroutine records none: it dies before the recording code). -/
def RepoResult.errOf : RepoResult → Option PipeErr
  | RepoResult.done err _ _ => err
  | RepoResult.panicked _ _ => none

/-- The goroutine body of `CleanECRWithLogging` for one repository.
A dry run logs one line and returns before any remote call.  Otherwise
the orphans are computed and, when non-empty, deleted; note the source
re-appends the stale `logMessage` (still the "Checking repository" line)
before deleting.  A returned error is logged and recorded, but the
manifests-entry type-assertion panic (`PipeErr.entryPanic`, see
`getChildImages`) is not an error return in Go: it unwinds past the
`err != nil` handler, so the goroutine ends `panicked` instead. -/
def runRepoPipeline (env : RepoEnv) (dryRun : Bool) (repo : String) : RepoResult :=
  if dryRun then RepoResult.done none [LogMsg.dryRunRepo repo] []
  else
    match imagesToDeleteWithLogging env repo with
    | (Except.error PipeErr.entryPanic, logs, calls) =>
      RepoResult.panicked (LogMsg.checking repo :: logs) calls
    | (Except.error e, logs, calls) =>
      RepoResult.done (some e) (LogMsg.checking repo :: logs ++ [LogMsg.errGetImages repo]) calls
    | (Except.ok images, logs, calls) =>
      if images.length > 0 then
        match deleteImagesWithLogging env.batchDelete repo images dryRun with
        | (some msg, logs2, calls2) =>
          RepoResult.done (some (PipeErr.deleteFailed msg))
            (LogMsg.checking repo :: logs ++ [LogMsg.checking repo] ++ logs2 ++ [LogMsg.errDeleteImages repo])
            (calls ++ calls2)
        | (none, logs2, calls2) =>
          RepoResult.done none
            (LogMsg.checking repo :: logs ++ [LogMsg.checking repo] ++ logs2)
            (calls ++ calls2)
      else
        RepoResult.done none (LogMsg.checking repo :: logs ++ [LogMsg.nothingToDelete repo]) calls

/-- Go `CleanECRWithLogging`: one goroutine per repository (linearized in
repository order — the goroutines are independent), failures collected
into `errs`; a non-empty `errs` yields the aggregate error.  An
unrecovered panic in any goroutine terminates the whole Go process —
`wg.Wait` never returns, no aggregate error and no success value is
produced, and sibling pipelines are killed mid-flight — modelled as
`none`.  The source additionally sorts and prints the collected log
lines, which is I/O and not modelled. -/
def CleanECRWithLogging (envOf : String → RepoEnv) (repositories : List String) (dryRun : Bool) : Option (Except (List PipeErr) Unit) :=
  let results := repositories.map fun repo => runRepoPipeline (envOf repo) dryRun repo
  if results.any RepoResult.isPanic then none
  else
    let errs := results.filterMap RepoResult.errOf
    if errs.isEmpty then some (Except.ok ()) else some (Except.error errs)

/-- Total of the deleted identifiers reported by the responses to the
given chunks (a chunk whose request errors reports none). -/
def sumDel (bd : List String → Except String BatchDeleteResult) (chunks : List (List String)) : Nat :=
  (chunks.map fun p => match bd p with
    | Except.ok r => r.imageIds.length
    | Except.error _ => 0).sum

/-- Total of the per-item failures reported by the responses to the
given chunks. -/
def sumFail (bd : List String → Except String BatchDeleteResult) (chunks : List (List String)) : Nat :=
  (chunks.map fun p => match bd p with
    | Except.ok r => r.failures.length
    | Except.error _ => 0).sum

/-- Test fixture: a `BatchGetImage` response function that always fails. -/
def bgFail : List String → Except String (List (Option Json)) := fun _ => Except.error "g"

/-- Test fixture: a `BatchDeleteImage` response function that always fails. -/
def bdFail : List String → Except String BatchDeleteResult := fun _ => Except.error "d"

/-- Test fixture: a repository whose listing succeeds with no images. -/
def envEmpty : RepoEnv := ⟨[], bgFail, bdFail⟩

/-- Test fixture: a repository whose first listing page fetch fails. -/
def envListFail : RepoEnv := ⟨[Except.error "x"], bgFail, bdFail⟩

/-- Test fixture: per-repository environments, repository `bad` failing. -/
def envOfW : String → RepoEnv := fun r => if r = "bad" then envListFail else envEmpty

/-- Test fixture: a repository with one tagged image whose fetched
manifest carries a non-object `manifests` entry — the input on which the
source's type assertion panics. -/
def envPanic : RepoEnv :=
  ⟨[Except.ok [⟨"t1", some "v1"⟩]],
   fun _ => Except.ok [some (Json.obj [("manifests", Json.arr [Json.num 5])])],
   bdFail⟩

/-- Test fixture: every repository resolves to the panicking environment. -/
def envOfPanic : String → RepoEnv := fun _ => envPanic

theorem contains_eq_decide_mem (a : String) (l : List String) :
    l.contains a = decide (a ∈ l) := by
  simp [List.contains_eq_any_beq]

theorem filterOrphans_eq_filter (U C : List String) :
    filterOrphans U C = U.filter fun u => !(C.contains u) := by
  suffices h : ∀ acc : List String,
      U.foldl (fun result orphan => if C.contains orphan then result else result ++ [orphan]) acc
        = acc ++ U.filter (fun u => !(C.contains u)) by
    simpa [filterOrphans] using h []
  induction U with
  | nil => intro acc; simp
  | cons u rest ih =>
    intro acc
    cases hc : C.contains u with
    | true =>
      rw [List.foldl_cons, List.filter_cons]
      simp only [hc, Bool.not_true]
      rw [if_pos trivial, if_neg (by simp)]
      exact ih acc
    | false =>
      rw [List.foldl_cons, List.filter_cons]
      simp only [hc, Bool.not_false]
      rw [if_neg (by simp), ih (acc ++ [u])]
      simp

theorem filterOrphans_nil_children (U : List String) : filterOrphans U [] = U := by
  simp [filterOrphans_eq_filter, contains_eq_decide_mem]

theorem filterOrphans_append (U C1 C2 : List String) :
    filterOrphans (filterOrphans U C1) C2 = filterOrphans U (C1 ++ C2) := by
  simp only [filterOrphans_eq_filter, List.filter_filter]
  apply List.filter_congr
  intro u _
  by_cases h1 : u ∈ C1 <;> by_cases h2 : u ∈ C2 <;>
    simp [contains_eq_decide_mem, h1, h2]

theorem reconcileChunks_eq (childOf : String → List String) :
    ∀ (ps : List (List String)) (U : List String),
      reconcileChunks childOf ps U = filterOrphans U ((ps.flatten.map childOf)).flatten := by
  intro ps
  induction ps with
  | nil => intro U; simp [reconcileChunks, filterOrphans_nil_children]
  | cons p ps ih =>
    intro U
    calc reconcileChunks childOf (p :: ps) U
        = reconcileChunks childOf ps (filterOrphans U ((p.map childOf).flatten)) := rfl
      _ = filterOrphans (filterOrphans U ((p.map childOf).flatten)) ((ps.flatten.map childOf).flatten) := ih _
      _ = filterOrphans U (((p.map childOf).flatten) ++ ((ps.flatten.map childOf).flatten)) := filterOrphans_append _ _ _
      _ = filterOrphans U (((p :: ps).flatten.map childOf).flatten) := by
          simp [List.map_append]

theorem reconcileChunks_sublist (childOf : String → List String) :
    ∀ (ps : List (List String)) (U : List String),
      List.Sublist (reconcileChunks childOf ps U) U := by
  intro ps
  induction ps with
  | nil => intro U; exact List.Sublist.refl U
  | cons p ps ih =>
    intro U
    have h1 : List.Sublist (filterOrphans U ((p.map childOf).flatten)) U := by
      rw [filterOrphans_eq_filter]; exact List.filter_sublist U
    exact List.Sublist.trans (ih (filterOrphans U ((p.map childOf).flatten))) h1

theorem partitionList_nil (size : Nat) : partitionList [] size = [] := by
  rw [partitionList]
  simp

theorem partitionList_cons (l : List String) (size : Nat) (h1 : l ≠ []) (h2 : size ≠ 0) :
    partitionList l size = l.take size :: partitionList (l.drop size) size := by
  rw [partitionList]
  simp [h1, h2]

theorem partitionList_flatten (size : Nat) (hs : size ≠ 0) :
    ∀ (n : Nat) (l : List String), l.length ≤ n → (partitionList l size).flatten = l := by
  intro n
  induction n with
  | zero =>
    intro l hl
    have hnil : l = [] := List.eq_nil_of_length_eq_zero (Nat.le_zero.mp hl)
    subst hnil
    simp [partitionList_nil]
  | succ n ih =>
    intro l hl
    by_cases h : l = []
    · subst h; simp [partitionList_nil]
    · rw [partitionList_cons l size h hs, List.flatten_cons]
      rw [ih (l.drop size) (by rw [List.length_drop]; omega)]
      exact List.take_append_drop size l

theorem partitionList_chunk_bounds (size : Nat) (hs : size ≠ 0) :
    ∀ (n : Nat) (l : List String), l.length ≤ n →
      ∀ c ∈ partitionList l size, 1 ≤ c.length ∧ c.length ≤ size := by
  intro n
  induction n with
  | zero =>
    intro l hl
    have hnil : l = [] := List.eq_nil_of_length_eq_zero (Nat.le_zero.mp hl)
    subst hnil
    simp [partitionList_nil]
  | succ n ih =>
    intro l hl
    by_cases h : l = []
    · subst h; simp [partitionList_nil]
    · rw [partitionList_cons l size h hs]
      intro c hc
      rcases List.mem_cons.mp hc with rfl | hc2
      · have hpos : 0 < l.length := List.length_pos.mpr h
        simp only [List.length_take]
        omega
      · exact ih (l.drop size) (by rw [List.length_drop]; omega) c hc2

theorem partitionList_dropLast (size : Nat) (hs : size ≠ 0) :
    ∀ (n : Nat) (l : List String), l.length ≤ n →
      ∀ c ∈ (partitionList l size).dropLast, c.length = size := by
  intro n
  induction n with
  | zero =>
    intro l hl
    have hnil : l = [] := List.eq_nil_of_length_eq_zero (Nat.le_zero.mp hl)
    subst hnil
    simp [partitionList_nil]
  | succ n ih =>
    intro l hl
    by_cases h : l = []
    · subst h; simp [partitionList_nil]
    · rw [partitionList_cons l size h hs]
      cases hrest : partitionList (l.drop size) size with
      | nil => simp
      | cons b bs =>
        intro c hc
        rw [List.dropLast_cons₂] at hc
        rcases List.mem_cons.mp hc with rfl | hc2
        · have hdrop : l.drop size ≠ [] := by
            intro hd
            rw [hd, partitionList_nil] at hrest
            exact List.noConfusion hrest
          have hlen : size < l.length := by
            by_contra hle
            exact hdrop (List.drop_eq_nil_iff.mpr (by omega))
          simp only [List.length_take]
          omega
        · rw [← hrest] at hc2
          exact ih (l.drop size) (by rw [List.length_drop]; omega) c hc2

/-- C7: `partitionList lst 100` splits every list into consecutive chunks
that concatenate back to the input; every chunk except possibly the last
has length exactly 100, every chunk (so also the last) has length
between 1 and 100, and the empty list yields no chunks. -/
theorem partitionList_spec (l : List String) :
    (partitionList l 100).flatten = l
    ∧ (∀ c ∈ (partitionList l 100).dropLast, c.length = 100)
    ∧ (∀ c ∈ partitionList l 100, 1 ≤ c.length ∧ c.length ≤ 100)
    ∧ partitionList [] 100 = [] :=
  ⟨partitionList_flatten 100 (by omega) l.length l le_rfl,
   partitionList_dropLast 100 (by omega) l.length l le_rfl,
   partitionList_chunk_bounds 100 (by omega) l.length l le_rfl,
   partitionList_nil 100⟩

/-- C7 witness: the chunk properties evaluated on a concrete three-element
list with chunk size 100. -/
theorem partitionList_spec_witness :
    (partitionList ["a", "b", "c"] 100).flatten = ["a", "b", "c"]
    ∧ (∀ c ∈ partitionList ["a", "b", "c"] 100, 1 ≤ c.length ∧ c.length ≤ 100) :=
  ⟨(partitionList_spec ["a", "b", "c"]).1, (partitionList_spec ["a", "b", "c"]).2.2.1⟩

/-- C9: `filterOrphans` returns exactly the order- and
multiplicity-preserving sublist of the orphans not occurring among the
children; it is a sublist of its input, and (being a pure function of
its arguments) deterministic.  The last conjunct is the repository's own
`TestFilterOrphans` vector. -/
theorem filterOrphans_stable (U C : List String) :
    filterOrphans U C = U.filter (fun u => !(C.contains u))
    ∧ List.Sublist (filterOrphans U C) U
    ∧ (∀ u, u ∈ filterOrphans U C ↔ u ∈ U ∧ u ∉ C)
    ∧ filterOrphans ["a", "b", "c", "d"] ["b", "d"] = ["a", "c"] := by
  refine ⟨filterOrphans_eq_filter U C, ?_, ?_, by decide⟩
  · rw [filterOrphans_eq_filter]; exact List.filter_sublist U
  · intro u
    rw [filterOrphans_eq_filter]
    simp [List.mem_filter, contains_eq_decide_mem]

/-- C9 witness: the characterization evaluated on the repository's own
test vector. -/
theorem filterOrphans_stable_witness :
    filterOrphans ["a", "b", "c", "d"] ["b", "d"]
      = List.filter (fun u => !(List.contains ["b", "d"] u)) ["a", "b", "c", "d"]
    ∧ List.Sublist (filterOrphans ["a", "b", "c", "d"] ["b", "d"]) ["a", "b", "c", "d"] :=
  ⟨(filterOrphans_stable ["a", "b", "c", "d"] ["b", "d"]).1,
   (filterOrphans_stable ["a", "b", "c", "d"] ["b", "d"]).2.1⟩

/-- C3: one reconciliation step never grows the working untagged set —
`filterOrphans U C` is a sublist (hence a subset) of `U` of no greater
length — and the whole chunk fold keeps the working set a sublist of the
initial untagged set. -/
theorem filterOrphans_shrinks (U C : List String) (childOf : String → List String) (chunks : List (List String)) :
    List.Sublist (filterOrphans U C) U
    ∧ filterOrphans U C ⊆ U
    ∧ (filterOrphans U C).length ≤ U.length
    ∧ List.Sublist (reconcileChunks childOf chunks U) U
    ∧ reconcileChunks childOf chunks U ⊆ U := by
  have h1 : List.Sublist (filterOrphans U C) U := by
    rw [filterOrphans_eq_filter]; exact List.filter_sublist U
  have h2 : List.Sublist (reconcileChunks childOf chunks U) U :=
    reconcileChunks_sublist childOf chunks U
  exact ⟨h1, h1.subset, h1.length_le, h2, h2.subset⟩

theorem reconcileE_ok (env : RepoEnv) (childOf : String → List String) :
    ∀ (ps : List (List String)) (U : List String),
      (∀ p ∈ ps, listChildImages env p = Except.ok ((p.map childOf).flatten)) →
      reconcileE env ps U = Except.ok (reconcileChunks childOf ps U) := by
  intro ps
  induction ps with
  | nil => intro U _; rfl
  | cons p ps ih =>
    intro U h
    have hp := h p (List.mem_cons_self p ps)
    simp only [reconcileE, hp]
    exact ih (filterOrphans U ((p.map childOf).flatten))
      (fun q hq => h q (List.mem_cons_of_mem p hq))

/-- C1: the orphan set computed by the chunked reconciliation fold equals
the set difference U − C, where C is the flattened children of all the
tagged digests, for every order-preserving chunking of the tagged list;
in particular chunk sizes 1, 2 and 100 agree, and `imagesToDelete`
returns exactly that set difference whenever the registry answers each
chunked child query consistently with a per-digest children map. -/
theorem reconcile_chunking_invariant (childOf : String → List String) (U D : List String) (ps : List (List String)) (hps : ps.flatten = D) :
    reconcileChunks childOf ps U = setDiff U ((D.map childOf).flatten)
    ∧ (∀ n, n ≠ 0 → reconcileChunks childOf (partitionList D n) U = setDiff U ((D.map childOf).flatten))
    ∧ reconcileChunks childOf (partitionList D 1) U = reconcileChunks childOf (partitionList D 2) U
    ∧ reconcileChunks childOf (partitionList D 2) U = reconcileChunks childOf (partitionList D 100) U
    ∧ (∀ (env : RepoEnv) (tagged orphans : List String),
        listImages env.pages ([], []) = Except.ok (tagged, orphans) →
        (∀ p ∈ partitionList tagged 100, listChildImages env p = Except.ok ((p.map childOf).flatten)) →
        imagesToDelete env = Except.ok (setDiff orphans ((tagged.map childOf).flatten), tagged.length, orphans.length)) := by
  have key : ∀ (qs : List (List String)), qs.flatten = D →
      reconcileChunks childOf qs U = setDiff U ((D.map childOf).flatten) := by
    intro qs hqs
    rw [reconcileChunks_eq, hqs, filterOrphans_eq_filter]
    rfl
  refine ⟨key ps hps, ?_, ?_, ?_, ?_⟩
  · intro n hn
    exact key _ (partitionList_flatten n hn D.length D le_rfl)
  · rw [key _ (partitionList_flatten 1 one_ne_zero D.length D le_rfl),
        key _ (partitionList_flatten 2 (by omega) D.length D le_rfl)]
  · rw [key _ (partitionList_flatten 2 (by omega) D.length D le_rfl),
        key _ (partitionList_flatten 100 (by omega) D.length D le_rfl)]
  · intro env tagged orphans hlist hresp
    have h1 : reconcileE env (partitionList tagged 100) orphans
        = Except.ok (reconcileChunks childOf (partitionList tagged 100) orphans) :=
      reconcileE_ok env childOf _ _ hresp
    have h2 : reconcileChunks childOf (partitionList tagged 100) orphans
        = setDiff orphans ((tagged.map childOf).flatten) := by
      rw [reconcileChunks_eq,
          partitionList_flatten 100 (by omega) tagged.length tagged le_rfl,
          filterOrphans_eq_filter]
      rfl
    unfold imagesToDelete
    rw [hlist]
    dsimp only
    rw [h1, h2]

/-- C1 witness: the spec's scenario — tagged index `idx1` referencing
child `img1`, untagged `{img1, img2}` — reconciled in one chunk gives
exactly the set difference, namely `[img2]`. -/
theorem reconcile_chunking_invariant_witness :
    ([["idx1"]] : List (List String)).flatten = ["idx1"]
    ∧ reconcileChunks (fun d => if d = "idx1" then ["img1"] else []) [["idx1"]] ["img1", "img2"]
        = setDiff ["img1", "img2"]
            ((["idx1"].map fun d => if d = "idx1" then ["img1"] else []).flatten)
    ∧ setDiff ["img1", "img2"] ["img1"] = ["img2"] :=
  ⟨rfl,
   (reconcile_chunking_invariant (fun d => if d = "idx1" then ["img1"] else [])
      ["img1", "img2"] ["idx1"] [["idx1"]] rfl).1,
   by decide⟩

/-- C3 witness: the no-growth facts evaluated on the repository's test
vector and a two-chunk fold. -/
theorem filterOrphans_shrinks_witness :
    List.Sublist (filterOrphans ["a", "b"] ["b"]) ["a", "b"]
    ∧ reconcileChunks (fun d => [d]) [["a"], ["c"]] ["a", "b"] ⊆ ["a", "b"] :=
  ⟨(filterOrphans_shrinks ["a", "b"] ["b"] (fun d => [d]) [["a"], ["c"]]).1,
   (filterOrphans_shrinks ["a", "b"] ["b"] (fun d => [d]) [["a"], ["c"]]).2.2.2.2⟩

theorem classifyImages_eq (page : List ImageId) :
    ∀ (t o : List String),
      classifyImages page (t, o) = (t ++ taggedOf page, o ++ orphanOf page) := by
  induction page with
  | nil => intro t o; simp [classifyImages, taggedOf, orphanOf]
  | cons i rest ih =>
    intro t o
    cases htag : i.imageTag with
    | some v =>
      have hstep : classifyImages (i :: rest) (t, o)
          = classifyImages rest (t ++ [i.imageDigest], o) := by
        simp [classifyImages, List.foldl_cons, htag]
      rw [hstep, ih]
      simp [taggedOf, orphanOf, List.filter_cons, htag]
    | none =>
      have hstep : classifyImages (i :: rest) (t, o)
          = classifyImages rest (t, o ++ [i.imageDigest]) := by
        simp [classifyImages, List.foldl_cons, htag]
      rw [hstep, ih]
      simp [taggedOf, orphanOf, List.filter_cons, htag]

theorem getImages_ok_eq :
    ∀ (pages : List (Except String (List ImageId))) (t o : List String) (r : List String × List String),
      getImages pages (t, o) = Except.ok r →
      r = (t ++ taggedOf (listedImages pages), o ++ orphanOf (listedImages pages)) := by
  intro pages
  induction pages with
  | nil =>
    intro t o r h
    simp only [getImages, Except.ok.injEq] at h
    simp [← h, listedImages, taggedOf, orphanOf]
  | cons pg rest ih =>
    intro t o r h
    cases pg with
    | error m => simp [getImages] at h
    | ok page =>
      simp only [getImages] at h
      rw [classifyImages_eq] at h
      rw [ih _ _ _ h]
      simp [listedImages, taggedOf, orphanOf, List.filter_append, List.map_append,
        List.append_assoc]

theorem mem_taggedOf (d : String) (l : List ImageId) :
    d ∈ taggedOf l ↔ ∃ i ∈ l, i.imageDigest = d ∧ i.imageTag.isSome = true := by
  simp only [taggedOf, List.mem_map, List.mem_filter]
  constructor
  · rintro ⟨i, ⟨hi, hs⟩, hd⟩
    exact ⟨i, hi, hd, hs⟩
  · rintro ⟨i, hi, hd, hs⟩
    exact ⟨i, ⟨hi, hs⟩, hd⟩

theorem mem_orphanOf (d : String) (l : List ImageId) :
    d ∈ orphanOf l ↔ ∃ i ∈ l, i.imageDigest = d ∧ i.imageTag = none := by
  simp only [orphanOf, List.mem_map, List.mem_filter, Bool.not_eq_true']
  constructor
  · rintro ⟨i, ⟨hi, hs⟩, hd⟩
    refine ⟨i, hi, hd, ?_⟩
    cases hx : i.imageTag with
    | none => rfl
    | some v => rw [hx] at hs; simp at hs
  · rintro ⟨i, hi, hd, hs⟩
    exact ⟨i, ⟨hi, by simp [hs]⟩, hd⟩

theorem getImages_error :
    ∀ (pre : List (Except String (List ImageId))) (m : String) (post : List (Except String (List ImageId))) (acc : List String × List String),
      (∀ p ∈ pre, ∃ page, p = Except.ok page) →
      getImages (pre ++ Except.error m :: post) acc = Except.error m := by
  intro pre
  induction pre with
  | nil => intro m post acc _; rfl
  | cons p pre ih =>
    intro m post acc hok
    rcases hok p (List.mem_cons_self p pre) with ⟨page, rfl⟩
    cases acc with
    | mk t o =>
      simp only [List.cons_append, getImages]
      exact ih m post _ (fun q hq => hok q (List.mem_cons_of_mem _ hq))

/-- C5: on success `getImages` (and its verbatim duplicate `listImages`)
classifies every listed digest: a digest is in `tagged` iff some listed
entry carries it with a present tag (a non-nil `ImageTag`), and in
`orphan` (untagged) iff some entry carries it with no tag; together the
two lists cover every listed digest, and on any listing in which no
digest appears both with and without a tag they are disjoint.  A page
fetch error is returned as that error, with no partial result. -/
theorem getImages_partition (pages : List (Except String (List ImageId))) :
    (∀ tagged orphan, getImages pages ([], []) = Except.ok (tagged, orphan) →
      (∀ d, d ∈ tagged ↔ ∃ i ∈ listedImages pages, i.imageDigest = d ∧ i.imageTag.isSome = true)
      ∧ (∀ d, d ∈ orphan ↔ ∃ i ∈ listedImages pages, i.imageDigest = d ∧ i.imageTag = none)
      ∧ (∀ i ∈ listedImages pages, i.imageDigest ∈ tagged ∨ i.imageDigest ∈ orphan)
      ∧ (ValidListing pages → ∀ d, ¬(d ∈ tagged ∧ d ∈ orphan)))
    ∧ (∀ pre m post, pages = pre ++ Except.error m :: post →
        (∀ p ∈ pre, ∃ page, p = Except.ok page) →
        getImages pages ([], []) = Except.error m) := by
  constructor
  · intro tagged orphan h
    have heq := getImages_ok_eq pages [] [] (tagged, orphan) h
    simp only [List.nil_append, Prod.mk.injEq] at heq
    obtain ⟨ht, ho⟩ := heq
    subst ht; subst ho
    refine ⟨fun d => mem_taggedOf d _, fun d => mem_orphanOf d _, ?_, ?_⟩
    · intro i hi
      cases hs : i.imageTag with
      | some v =>
        exact Or.inl ((mem_taggedOf _ _).mpr ⟨i, hi, rfl, by simp [hs]⟩)
      | none =>
        exact Or.inr ((mem_orphanOf _ _).mpr ⟨i, hi, rfl, hs⟩)
    · intro hvalid d ⟨hdt, hdo⟩
      obtain ⟨i, hi, hdi, hsi⟩ := (mem_taggedOf d _).mp hdt
      obtain ⟨j, hj, hdj, hsj⟩ := (mem_orphanOf d _).mp hdo
      have := hvalid i hi j hj (by rw [hdi, hdj])
      rw [hsi, hsj] at this
      simp at this
  · intro pre m post hpages hok
    rw [hpages]
    exact getImages_error pre m post ([], []) hok

/-- C5 witness: a one-page listing with one tagged and one untagged
image is split into disjoint singletons, and a failing page propagates
its error. -/
theorem getImages_partition_witness :
    getImages [Except.error "page boom"] ([], []) = Except.error "page boom"
    ∧ ¬("d1" ∈ (["d1"] : List String) ∧ "d1" ∈ (["d2"] : List String)) :=
  ⟨(getImages_partition [Except.error "page boom"]).2 [] "page boom" [] rfl
      (by intro q hq; simp at hq),
   ((getImages_partition [Except.ok [⟨"d1", some "v1"⟩, ⟨"d2", none⟩]]).1 ["d1"] ["d2"] rfl).2.2.2
      (by
        intro i hi j hj hd
        simp only [listedImages, List.append_nil] at hi hj
        rcases List.mem_cons.mp hi with rfl | hi2 <;>
          rcases List.mem_cons.mp hj with rfl | hj2 <;>
            simp_all [List.mem_singleton])
      "d1"⟩

theorem partitionList_single (l : List String) (size : Nat) (h1 : l ≠ []) (h2 : size ≠ 0) (h3 : l.length ≤ size) :
    partitionList l size = [l] := by
  rw [partitionList_cons l size h1 h2, List.take_of_length_le h3,
    List.drop_eq_nil_of_le h3, partitionList_nil]

theorem deleteBatches_dryRun (bd : List String → Except String BatchDeleteResult) :
    ∀ (parts : List (List String)) (d f : Nat),
      deleteBatches bd true parts d f = ((d, f, none), []) := by
  intro parts
  induction parts with
  | nil => intro d f; rfl
  | cons p ps ih =>
    intro d f
    simp only [deleteBatches, if_pos rfl]
    exact ih d f

/-- C2: with the dry-run flag set, the batch deleter issues no mutating
call — its `BatchDeleteImage` trace is empty, so folding any
state-transition over the issued calls leaves every registry state
unchanged — `deleteImages` reports `(0, 0, nil)`, and
`deleteImagesWithLogging` emits exactly one would-delete line whose
reported count is the length of the orphan list passed to it. -/
theorem dryRun_batch_deleter_frame (bd : List String → Except String BatchDeleteResult) (repo : String) (images : List String) :
    deleteImages bd images true = ((0, 0, none), [])
    ∧ deleteImagesWithLogging bd repo images true
        = (none, [LogMsg.dryRunWouldDelete images.length repo], [])
    ∧ (∀ (σ : Type) (ap : σ → ApiCall → σ) (s : σ),
        ((deleteImages bd images true).snd).foldl ap s = s) := by
  refine ⟨deleteBatches_dryRun bd (partitionList images 100) 0 0, rfl, ?_⟩
  intro σ ap s
  simp only [deleteImages]
  rw [deleteBatches_dryRun bd (partitionList images 100) 0 0]
  rfl

theorem deleteBatches_ok (bd : List String → Except String BatchDeleteResult) :
    ∀ (parts : List (List String)) (d f : Nat),
      (∀ p ∈ parts, ∃ r, bd p = Except.ok r) →
      deleteBatches bd false parts d f
        = ((d + sumDel bd parts, f + sumFail bd parts, none), parts.map ApiCall.batchDelete) := by
  intro parts
  induction parts with
  | nil => intro d f _; simp [deleteBatches, sumDel, sumFail]
  | cons p ps ih =>
    intro d f hok
    rcases hok p (List.mem_cons_self p ps) with ⟨r, hr⟩
    have ihh := ih (d + r.imageIds.length) (f + r.failures.length)
      (fun q hq => hok q (List.mem_cons_of_mem _ hq))
    simp [deleteBatches, hr, ihh, sumDel, sumFail, Nat.add_assoc]

theorem deleteBatches_error (bd : List String → Except String BatchDeleteResult) :
    ∀ (ps1 : List (List String)) (part : List String) (ps2 : List (List String)) (m : String) (d f : Nat),
      (∀ p ∈ ps1, ∃ r, bd p = Except.ok r) →
      bd part = Except.error m →
      deleteBatches bd false (ps1 ++ part :: ps2) d f
        = ((d + sumDel bd ps1, f + sumFail bd ps1, some m), (ps1 ++ [part]).map ApiCall.batchDelete) := by
  intro ps1
  induction ps1 with
  | nil =>
    intro part ps2 m d f _ herr
    simp [deleteBatches, herr, sumDel, sumFail]
  | cons p ps ih =>
    intro part ps2 m d f hok herr
    rcases hok p (List.mem_cons_self p ps) with ⟨r, hr⟩
    have ihh := ih part ps2 m (d + r.imageIds.length) (f + r.failures.length)
      (fun q hq => hok q (List.mem_cons_of_mem _ hq)) herr
    simp [deleteBatches, hr, ihh, sumDel, sumFail, Nat.add_assoc, List.append_eq]

/-- C6: with dry-run off, when every chunk's request succeeds the batch
deleter returns the per-batch sums of reported deleted identifiers and
per-item failures with no error — per-item failures are tallied and
never returned as errors — issuing one delete call per chunk; the first
request-level error aborts the remaining chunks and is returned together
with the totals accumulated over the chunks processed before it. -/
theorem deleteImages_error_handling (bd : List String → Except String BatchDeleteResult) (images : List String) :
    ((∀ p ∈ partitionList images 100, ∃ r, bd p = Except.ok r) →
      deleteImages bd images false
        = ((sumDel bd (partitionList images 100), sumFail bd (partitionList images 100), none),
            (partitionList images 100).map ApiCall.batchDelete))
    ∧ (∀ ps1 part ps2 m, partitionList images 100 = ps1 ++ part :: ps2 →
        (∀ p ∈ ps1, ∃ r, bd p = Except.ok r) →
        bd part = Except.error m →
        deleteImages bd images false
          = ((sumDel bd ps1, sumFail bd ps1, some m), (ps1 ++ [part]).map ApiCall.batchDelete)) := by
  constructor
  · intro hok
    simpa [deleteImages] using deleteBatches_ok bd (partitionList images 100) 0 0 hok
  · intro ps1 part ps2 m hsplit hok herr
    have h := deleteBatches_error bd ps1 part ps2 m 0 0 hok herr
    simp only [deleteImages, hsplit]
    simpa using h

/-- C6 witness: a response with one deleted identifier and one per-item
failure yields totals (1, 1) and no error; a request-level error on the
(single) chunk is returned with the zero partial totals. -/
theorem deleteImages_error_handling_witness :
    deleteImages
        (fun p => if p = ["b"] then Except.error "boom"
          else Except.ok { imageIds := p, failures := [{ digest := "f1", code := "c", reason := "r" }] })
        ["a"] false
      = ((1, 1, none), [ApiCall.batchDelete ["a"]])
    ∧ deleteImages
        (fun p => if p = ["b"] then Except.error "boom"
          else Except.ok { imageIds := p, failures := [{ digest := "f1", code := "c", reason := "r" }] })
        ["b"] false
      = ((0, 0, some "boom"), [ApiCall.batchDelete ["b"]]) := by
  have hp : partitionList ["a"] 100 = [["a"]] :=
    partitionList_single ["a"] 100 (by simp) (by omega) (by simp)
  have hq : partitionList ["b"] 100 = [["b"]] :=
    partitionList_single ["b"] 100 (by simp) (by omega) (by simp)
  constructor
  · have h := (deleteImages_error_handling
        (fun p => if p = ["b"] then Except.error "boom"
          else Except.ok { imageIds := p, failures := [{ digest := "f1", code := "c", reason := "r" }] })
        ["a"]).1
      (by rw [hp]; intro p hp2; rw [List.mem_singleton.mp hp2]; exact ⟨_, rfl⟩)
    rw [h, hp]
    decide
  · have h := (deleteImages_error_handling
        (fun p => if p = ["b"] then Except.error "boom"
          else Except.ok { imageIds := p, failures := [{ digest := "f1", code := "c", reason := "r" }] })
        ["b"]).2 [] ["b"] [] "boom" (by rw [hq]; rfl)
      (by intro p hp2; simp at hp2) rfl
    rw [h]
    decide

/-- C8 counterexample: one repository whose tagged image's manifest
carries the non-object `manifests` entry `5`.  Its pipeline fails — it
hits the unrecovered type-assertion panic — yet the orchestrator returns
no aggregate error and no success value: the process crashes (`none`),
refuting "returns an error if and only if at least one repository
pipeline failed ... aggregates every per-repository failure" as stated. -/
theorem cleanECR_aggregation_counterexample :
    CleanECRWithLogging envOfPanic ["pan"] false = none
    ∧ (runRepoPipeline (envOfPanic "pan") false "pan").isPanic = true
    ∧ CleanECRWithLogging envOfPanic ["pan"] false ≠ some (Except.ok ())
    ∧ CleanECRWithLogging envOfPanic ["pan"] false ≠ some (Except.error [PipeErr.entryPanic]) := by
  have hpl : partitionList ["t1"] 100 = [["t1"]] :=
    partitionList_single ["t1"] 100 (by simp) (by omega) (by simp)
  have hlc : listChildImages envPanic ["t1"] = Except.error PipeErr.entryPanic := rfl
  have hpg : envPanic.pages = [Except.ok [⟨"t1", some "v1"⟩]] := rfl
  have haux : imagesToDeleteWithLogging envPanic "pan"
      = (Except.error PipeErr.entryPanic,
          [LogMsg.foundImages "pan" 1 0, LogMsg.findingChildren "pan"],
          [ApiCall.listPage, ApiCall.batchGet ["t1"]]) := by
    simp [imagesToDeleteWithLogging, hpg, getImages, classifyImages, hpl, reconcileLogged,
      hlc, listCalls]
  have hrun : runRepoPipeline envPanic false "pan"
      = RepoResult.panicked
          [LogMsg.checking "pan", LogMsg.foundImages "pan" 1 0, LogMsg.findingChildren "pan"]
          [ApiCall.listPage, ApiCall.batchGet ["t1"]] := by
    simp [runRepoPipeline, haux]
  have hof : envOfPanic "pan" = envPanic := rfl
  have hclean : CleanECRWithLogging envOfPanic ["pan"] false = none := by
    simp [CleanECRWithLogging, hof, hrun, RepoResult.isPanic]
  refine ⟨hclean, by rw [hof, hrun]; rfl, by rw [hclean]; simp, by rw [hclean]; simp⟩

/-- C8 (amended): provided no repository's pipeline hits the unrecovered
manifests-entry panic (as with any registry serving well-formed
manifests — `getChildImages` characterizes exactly when), the
orchestrator returns an error exactly when at least one repository
pipeline recorded a failure; the aggregate error is the full list of
per-repository failures collected across all repositories (every
pipeline runs: the aggregate is a filter-map over the whole repository
list, so one repository's failure never prevents another's pipeline from
contributing its result), and the empty repository list yields success.
When some pipeline does panic, the process crashes and nothing is
returned, as the counterexample shows. -/
theorem cleanECR_aggregation (envOf : String → RepoEnv) (repos : List String) (dryRun : Bool)
    (hnp : ∀ r ∈ repos, (runRepoPipeline (envOf r) dryRun r).isPanic = false) :
    ((∃ errs, CleanECRWithLogging envOf repos dryRun = some (Except.error errs))
      ↔ ∃ r ∈ repos, ((runRepoPipeline (envOf r) dryRun r).errOf).isSome = true)
    ∧ (∀ errs, CleanECRWithLogging envOf repos dryRun = some (Except.error errs) →
        errs = repos.filterMap fun r => (runRepoPipeline (envOf r) dryRun r).errOf)
    ∧ (∀ errs r e, CleanECRWithLogging envOf repos dryRun = some (Except.error errs) →
        r ∈ repos → (runRepoPipeline (envOf r) dryRun r).errOf = some e → e ∈ errs)
    ∧ CleanECRWithLogging envOf [] dryRun = some (Except.ok ()) := by
  have hany : (repos.map fun repo => runRepoPipeline (envOf repo) dryRun repo).any RepoResult.isPanic = false := by
    rw [List.any_eq_false]
    intro x hx
    obtain ⟨r, hr, rfl⟩ := List.mem_map.mp hx
    simp [hnp r hr]
  have hmain : CleanECRWithLogging envOf repos dryRun
      = (if (repos.filterMap fun r => (runRepoPipeline (envOf r) dryRun r).errOf).isEmpty
          then some (Except.ok ())
          else some (Except.error (repos.filterMap fun r => (runRepoPipeline (envOf r) dryRun r).errOf))) := by
    simp only [CleanECRWithLogging, hany]
    rw [if_neg (by simp), List.filterMap_map]
    rfl
  have hagg : ∀ errs, CleanECRWithLogging envOf repos dryRun = some (Except.error errs) →
      errs = repos.filterMap fun r => (runRepoPipeline (envOf r) dryRun r).errOf := by
    intro errs herr
    rw [hmain] at herr
    by_cases hE : (repos.filterMap fun r => (runRepoPipeline (envOf r) dryRun r).errOf).isEmpty = true
    · rw [if_pos hE] at herr
      simp at herr
    · rw [if_neg hE] at herr
      simp only [Option.some.injEq] at herr
      cases herr
      rfl
  refine ⟨⟨?_, ?_⟩, hagg, ?_, rfl⟩
  · rintro ⟨errs, herr⟩
    have hE : (repos.filterMap fun r => (runRepoPipeline (envOf r) dryRun r).errOf).isEmpty ≠ true := by
      intro hE
      rw [hmain, if_pos hE] at herr
      simp at herr
    have hne : (repos.filterMap fun r => (runRepoPipeline (envOf r) dryRun r).errOf) ≠ [] := by
      simpa [List.isEmpty_iff] using hE
    obtain ⟨e, he⟩ := List.exists_mem_of_ne_nil _ hne
    obtain ⟨r, hr, hfr⟩ := List.mem_filterMap.mp he
    exact ⟨r, hr, by simp [hfr]⟩
  · rintro ⟨r, hr, hsome⟩
    rw [hmain]
    by_cases hE : (repos.filterMap fun r => (runRepoPipeline (envOf r) dryRun r).errOf).isEmpty = true
    · exfalso
      have hnone := List.filterMap_eq_nil_iff.mp (List.isEmpty_iff.mp hE) r hr
      rw [hnone] at hsome
      simp at hsome
    · exact ⟨_, if_neg hE⟩
  · intro errs r e herr hr hfe
    rw [hagg errs herr]
    exact List.mem_filterMap.mpr ⟨r, hr, hfe⟩

/-- C8 witness: with repository `bad` failing its listing (a returned
error, not a panic) and `good` succeeding, neither pipeline panics, the
orchestrator runs both, returns the aggregate error, and that aggregate
contains `bad`'s failure. -/
theorem cleanECR_aggregation_witness :
    CleanECRWithLogging envOfW ["good", "bad"] false = some (Except.error [PipeErr.listFailed "x"])
    ∧ PipeErr.listFailed "x" ∈ [PipeErr.listFailed "x"] := by
  have hgoodaux : imagesToDeleteWithLogging envEmpty "good"
      = (Except.ok [], [LogMsg.foundImages "good" 0 0], []) := by
    simp [imagesToDeleteWithLogging, envEmpty, getImages, partitionList_nil, reconcileLogged,
      listCalls]
  have hgood : runRepoPipeline envEmpty false "good"
      = RepoResult.done none [LogMsg.checking "good", LogMsg.foundImages "good" 0 0,
          LogMsg.nothingToDelete "good"] [] := by
    simp [runRepoPipeline, hgoodaux]
  have hbad : runRepoPipeline envListFail false "bad"
      = RepoResult.done (some (PipeErr.listFailed "x"))
          [LogMsg.checking "bad", LogMsg.errGetImages "bad"] [ApiCall.listPage] := by
    simp [runRepoPipeline, imagesToDeleteWithLogging, envListFail, getImages, listCalls]
  have h1 : envOfW "good" = envEmpty := by
    rw [envOfW]
    exact if_neg (by decide)
  have h2 : envOfW "bad" = envListFail := by
    rw [envOfW]
    exact if_pos rfl
  have hclean : CleanECRWithLogging envOfW ["good", "bad"] false
      = some (Except.error [PipeErr.listFailed "x"]) := by
    simp only [CleanECRWithLogging, List.map_cons, List.map_nil, h1, h2, hgood, hbad]
    rfl
  have hnp : ∀ r ∈ ["good", "bad"], (runRepoPipeline (envOfW r) false r).isPanic = false := by
    intro r hr
    rcases List.mem_cons.mp hr with rfl | hr2
    · rw [h1, hgood]; rfl
    · rw [List.mem_singleton.mp hr2, h2, hbad]; rfl
  exact ⟨hclean,
    (cleanECR_aggregation envOfW ["good", "bad"] false hnp).2.2.1
      [PipeErr.listFailed "x"] "bad" (PipeErr.listFailed "x") hclean
      (by simp) (by rw [h2, hbad]; rfl)⟩

/-- C10: with the dry-run flag, each repository's goroutine emits exactly
one would-delete log line and returns with no error and no API calls —
for every registry environment, so nothing is listed or fetched and the
orphan set is never computed — and the orchestrator returns success. -/
theorem cleanECR_dryRun_no_calls (envOf : String → RepoEnv) (env : RepoEnv) (repos : List String) (repo : String) :
    runRepoPipeline env true repo = RepoResult.done none [LogMsg.dryRunRepo repo] []
    ∧ CleanECRWithLogging envOf repos true = some (Except.ok ()) := by
  refine ⟨rfl, ?_⟩
  have hany : (repos.map fun r => runRepoPipeline (envOf r) true r).any RepoResult.isPanic = false := by
    rw [List.any_eq_false]
    intro x hx
    obtain ⟨r, hr, rfl⟩ := List.mem_map.mp hx
    simp [runRepoPipeline, RepoResult.isPanic]
  have hnil : (repos.map fun r => runRepoPipeline (envOf r) true r).filterMap RepoResult.errOf = [] := by
    rw [List.filterMap_map]
    exact List.filterMap_eq_nil_iff.mpr (fun a _ => rfl)
  simp only [CleanECRWithLogging, hany]
  rw [if_neg (by simp), hnil]
  rfl

theorem childrenOfEntries_isOk (ms : List Json) :
    (childrenOfEntries ms).isOk
      = (ms.all fun m => match m with | Json.obj _ => true | _ => false) := by
  induction ms with
  | nil => rfl
  | cons m rest ih =>
    cases m with
    | obj fields =>
      simp only [childrenOfEntries, List.all_cons]
      cases hre : childrenOfEntries rest with
      | error e =>
        rw [hre] at ih
        simp [← ih, Except.isOk, Except.toBool]
      | ok cs =>
        rw [hre] at ih
        cases hd : getField fields "digest" with
        | none => simp [← ih, Except.isOk, Except.toBool]
        | some v => cases v <;> simp [← ih, Except.isOk, Except.toBool]
    | null => rfl
    | bool b => rfl
    | num n => rfl
    | str s => rfl
    | arr elems => rfl

theorem getChildImages_isOk (bodies : List (Option Json)) :
    (getChildImages bodies).isOk = bodies.all bodyOk := by
  induction bodies with
  | nil => rfl
  | cons b rest ih =>
    cases b with
    | none => rfl
    | some j =>
      cases j with
      | null => simp only [getChildImages, List.all_cons, bodyOk, Bool.true_and]; exact ih
      | bool v => rfl
      | num n => rfl
      | str s => rfl
      | arr elems => rfl
      | obj fields =>
        simp only [getChildImages, List.all_cons, bodyOk]
        cases hmf : getField fields "manifests" with
        | none => simpa using ih
        | some v =>
          cases v with
          | arr ms =>
            dsimp only
            have hco := childrenOfEntries_isOk ms
            cases hce : childrenOfEntries ms with
            | error e =>
              rw [hce] at hco
              simp [← hco, Except.isOk, Except.toBool]
            | ok cs =>
              rw [hce] at hco
              cases hgr : getChildImages rest with
              | error e =>
                rw [hgr] at ih
                simp [← hco, ← ih, Except.isOk, Except.toBool]
              | ok cs2 =>
                rw [hgr] at ih
                simp [← hco, ← ih, Except.isOk, Except.toBool]
          | null => simpa using ih
          | bool v2 => simpa using ih
          | num n => simpa using ih
          | str s => simpa using ih
          | obj f2 => simpa using ih

theorem childrenOfEntries_complete :
    ∀ (ms : List Json) (cs : List String),
      childrenOfEntries ms = Except.ok cs →
      ∀ f2, Json.obj f2 ∈ ms →
      ∀ d, getField f2 "digest" = some (Json.str d) →
      d ∈ cs := by
  intro ms
  induction ms with
  | nil => intro cs _ f2 hmem; exact absurd hmem (by simp)
  | cons m rest ih =>
    intro cs h f2 hmem d hd
    cases m with
    | obj f =>
      cases hre : childrenOfEntries rest with
      | error e =>
        simp only [childrenOfEntries, hre] at h
        exact Except.noConfusion h
      | ok cs' =>
        simp only [childrenOfEntries, hre] at h
        rcases List.mem_cons.mp hmem with heq | hmem2
        · have hf : f2 = f := Json.obj.inj heq
          subst hf
          simp only [hd] at h
          cases h
          exact List.mem_cons_self d cs'
        · have hin := ih cs' hre f2 hmem2 d hd
          cases hdig : getField f "digest" with
          | none => simp only [hdig] at h; cases h; exact hin
          | some v =>
            cases v with
            | str s => simp only [hdig] at h; cases h; exact List.mem_cons_of_mem s hin
            | null => simp only [hdig] at h; cases h; exact hin
            | bool b => simp only [hdig] at h; cases h; exact hin
            | num n => simp only [hdig] at h; cases h; exact hin
            | arr a => simp only [hdig] at h; cases h; exact hin
            | obj o => simp only [hdig] at h; cases h; exact hin
    | null => simp [childrenOfEntries] at h
    | bool b => simp [childrenOfEntries] at h
    | num n => simp [childrenOfEntries] at h
    | str s => simp [childrenOfEntries] at h
    | arr a => simp [childrenOfEntries] at h

theorem getChildImages_complete :
    ∀ (bodies : List (Option Json)) (cs : List String),
      getChildImages bodies = Except.ok cs →
      ∀ fields, some (Json.obj fields) ∈ bodies →
      ∀ ms, getField fields "manifests" = some (Json.arr ms) →
      ∀ f2, Json.obj f2 ∈ ms →
      ∀ d, getField f2 "digest" = some (Json.str d) →
      d ∈ cs := by
  intro bodies
  induction bodies with
  | nil => intro cs _ fields hmem; exact absurd hmem (by simp)
  | cons b rest ih =>
    intro cs h fields hmem ms hmf f2 hf2 d hd
    cases b with
    | none => simp [getChildImages] at h
    | some j =>
      cases j with
      | null =>
        simp only [getChildImages] at h
        rcases List.mem_cons.mp hmem with heq | hmem2
        · cases heq
        · exact ih cs h fields hmem2 ms hmf f2 hf2 d hd
      | bool v => simp [getChildImages] at h
      | num n => simp [getChildImages] at h
      | str s => simp [getChildImages] at h
      | arr elems => simp [getChildImages] at h
      | obj f =>
        rcases List.mem_cons.mp hmem with heq | hmem2
        · have hf : fields = f := Json.obj.inj (Option.some.inj heq)
          subst hf
          simp only [getChildImages, hmf] at h
          cases hce : childrenOfEntries ms with
          | error e =>
            simp only [hce] at h
            exact Except.noConfusion h
          | ok cs1 =>
            simp only [hce] at h
            cases hgr : getChildImages rest with
            | error e =>
              simp only [hgr] at h
              exact Except.noConfusion h
            | ok cs2 =>
              simp only [hgr] at h
              cases h
              exact List.mem_append_left cs2 (childrenOfEntries_complete ms cs1 hce f2 hf2 d hd)
        · cases hmf2 : getField f "manifests" with
          | none =>
            simp only [getChildImages, hmf2] at h
            exact ih cs h fields hmem2 ms hmf f2 hf2 d hd
          | some v =>
            cases v with
            | arr ms2 =>
              simp only [getChildImages, hmf2] at h
              cases hce : childrenOfEntries ms2 with
              | error e =>
                simp only [hce] at h
                exact Except.noConfusion h
              | ok cs1 =>
                simp only [hce] at h
                cases hgr : getChildImages rest with
                | error e =>
                  simp only [hgr] at h
                  exact Except.noConfusion h
                | ok cs2 =>
                  simp only [hgr] at h
                  cases h
                  exact List.mem_append_right cs1 (ih cs2 hgr fields hmem2 ms hmf f2 hf2 d hd)
            | null =>
              simp only [getChildImages, hmf2] at h
              exact ih cs h fields hmem2 ms hmf f2 hf2 d hd
            | bool v2 =>
              simp only [getChildImages, hmf2] at h
              exact ih cs h fields hmem2 ms hmf f2 hf2 d hd
            | num n =>
              simp only [getChildImages, hmf2] at h
              exact ih cs h fields hmem2 ms hmf f2 hf2 d hd
            | str s =>
              simp only [getChildImages, hmf2] at h
              exact ih cs h fields hmem2 ms hmf f2 hf2 d hd
            | obj o =>
              simp only [getChildImages, hmf2] at h
              exact ih cs h fields hmem2 ms hmf f2 hf2 d hd

/-- C4 counterexample: the empty JSON array `[]` is valid JSON, yet the
manifest loop returns an error for it (Go's `json.Unmarshal` cannot
decode a non-object into `map[string]interface{}`), refuting "an error
if and only if some returned manifest body is not valid JSON"; and a
`manifests` array holding the non-object entry `5` before an object
entry with digest `a` aborts abnormally (a type-assertion panic in the
source), so the digest `a` of that entry never appears in any returned
children, refuting the claim's inclusion part on all-valid-JSON input. -/
theorem getChildImages_counterexample :
    getChildImages [some (Json.arr [])] = Except.error ChildErr.unmarshal
    ∧ ([some (Json.arr [])].all fun b => b.isSome) = true
    ∧ getChildImages
        [some (Json.obj [("manifests", Json.arr [Json.num 5, Json.obj [("digest", Json.str "a")]])])]
      = Except.error ChildErr.entryPanic
    ∧ ([some (Json.obj [("manifests", Json.arr [Json.num 5, Json.obj [("digest", Json.str "a")]])])].all
        fun b => b.isSome) = true :=
  ⟨rfl, rfl, rfl, rfl⟩

/-- C4 (amended): the batch manifest loop succeeds iff every returned
body unmarshals as a JSON object (an object, or the literal `null` which
unmarshals into a nil map) and every entry of every present `manifests`
array is itself a JSON object — a body of any other kind is the
unmarshal error the source returns, and a non-object `manifests` entry
is an abnormal abort (a runtime type-assertion panic in the source); a
body that is a JSON object without a `manifests` array contributes zero
children and causes no error; and on success every string `digest`
field of every object entry of every `manifests` array appears in the
returned children. -/
theorem getChildImages_amended (bodies : List (Option Json)) :
    ((∃ cs, getChildImages bodies = Except.ok cs) ↔ bodies.all bodyOk = true)
    ∧ (∀ fields rest, (∀ ms, getField fields "manifests" ≠ some (Json.arr ms)) →
        getChildImages (some (Json.obj fields) :: rest) = getChildImages rest)
    ∧ (∀ cs fields ms f2 d, getChildImages bodies = Except.ok cs →
        some (Json.obj fields) ∈ bodies →
        getField fields "manifests" = some (Json.arr ms) →
        Json.obj f2 ∈ ms →
        getField f2 "digest" = some (Json.str d) →
        d ∈ cs) := by
  refine ⟨?_, ?_, ?_⟩
  · rw [← getChildImages_isOk]
    constructor
    · rintro ⟨cs, hcs⟩
      rw [hcs]
      rfl
    · intro hok
      cases hg : getChildImages bodies with
      | error e => rw [hg] at hok; cases hok
      | ok cs => exact ⟨cs, rfl⟩
  · intro fields rest hnot
    cases hmf : getField fields "manifests" with
    | none => rw [getChildImages, hmf]
    | some v =>
      cases v with
      | arr ms => exact absurd hmf (hnot ms)
      | null => rw [getChildImages, hmf]
      | bool b => rw [getChildImages, hmf]
      | num n => rw [getChildImages, hmf]
      | str s => rw [getChildImages, hmf]
      | obj f => rw [getChildImages, hmf]
  · intro cs fields ms f2 d h hmem hmf hf2 hd
    exact getChildImages_complete bodies cs h fields hmem ms hmf f2 hf2 d hd

/-- C4 witness: a multi-arch index body whose `manifests` entry carries
digest `img1`, next to a single-platform body without a `manifests`
array: all bodies pass, and `img1` is among the extracted children. -/
theorem getChildImages_amended_witness :
    ([some (Json.obj [("manifests", Json.arr [Json.obj [("digest", Json.str "img1")]])]),
        some (Json.obj [("mediaType", Json.str "x")])].all bodyOk) = true
    ∧ "img1" ∈ ["img1"] := by
  refine ⟨rfl, ?_⟩
  exact (getChildImages_amended
      [some (Json.obj [("manifests", Json.arr [Json.obj [("digest", Json.str "img1")]])]),
        some (Json.obj [("mediaType", Json.str "x")])]).2.2
    ["img1"] [("manifests", Json.arr [Json.obj [("digest", Json.str "img1")]])]
    [Json.obj [("digest", Json.str "img1")]] [("digest", Json.str "img1")] "img1"
    rfl (List.mem_cons_self _ _) rfl (List.mem_cons_self _ _) rfl

end EcrCleaner
